import Mathlib

/-!
# Event-detection and curve-aggregation pipeline: a shallow embedding

This file embeds the per-take signal-processing core of `app.py` in Lean and
proves properties of it.  A take's signal channel is fetched from the store as
rows `(frame, value)` ordered by frame ascending, where `value` may be null;
we model such a fetched channel as `Curve := List (ℤ × Option ℚ)` and machine
floats as exact rationals.  Each detector of the source operates per take on
one such row list; the embedding reproduces the source's scan order, window
bounds, tie-breaking (Python `max`/`min` return the first extremal element)
and null filtering.
-/

/-- A fetched signal channel for one take: `(frame, value)` rows in the order
the accessor returns them (`ORDER BY frame ASC`); `none` is a SQL null. -/
abbrev Curve := List (ℤ × Option ℚ)

/-- Frames of the fetched rows are strictly increasing (the accessors sort by
frame, and a take has at most one row per frame). -/
abbrev FramesSorted (c : Curve) : Prop :=
  c.Pairwise (fun p q => p.1 < q.1)

/-- The non-null samples of a curve, in fetch order: models
`[(f, v) for f, v in zip(frames, values) if v is not None]`. -/
def validPairs (c : Curve) : List (ℤ × ℚ) :=
  c.filterMap (fun p => p.2.map (fun v => (p.1, v)))

/-- Python's `max(list, key=k)` / `min(list, key=k)` scan: starting from a
current best `acc`, replace it only when a strictly better key appears, so the
first extremal element of the list wins.  `k = id` gives `max`,
`k = Neg.neg` gives `min`. -/
def pyArgBest (k : ℚ → ℚ) (acc : ℤ × ℚ) (l : List (ℤ × ℚ)) : ℤ × ℚ :=
  l.foldl (fun a q => if k a.2 < k q.2 then q else a) acc

/-- Ball Release (`br_frames` / `br_idx` in `app.py`): among the non-null
samples of the hand-CG-velocity curve, the frame of the maximum value
(`idx, _ = max(valid, key=lambda x: x[1])`); `none` when no valid sample. -/
def br_frame (c : Curve) : Option ℤ :=
  match validPairs c with
  | [] => none
  | p :: ps => some (pyArgBest id p ps).1

/-- Throwing handedness of a take. -/
inductive Hand
  | R
  | L
deriving DecidableEq

/-- Cached Maximum External Rotation map (`shoulder_er_max_frames` in
`app.py`): over ALL non-null samples of the shoulder-rotation-angle curve
(no frame bound), the frame of the minimum value for a right-handed take and
of the maximum value for a left-handed take. -/
def shoulder_er_max_frame (hand : Hand) (c : Curve) : Option ℤ :=
  match validPairs c with
  | [] => none
  | p :: ps =>
      some (match hand with
            | Hand.R => (pyArgBest (fun v => -v) p ps).1
            | Hand.L => (pyArgBest id p ps).1)

/-- The non-null samples at frames `≤ br`, in fetch order: models
`[(f, v) for f, v in zip(frames, values) if v is not None and f <= br_frame]`. -/
def validLe (br : ℤ) (c : Curve) : List (ℤ × ℚ) :=
  c.filterMap (fun p => p.2.bind (fun v =>
    if p.1 ≤ br then some (p.1, v) else none))

/-- Inline per-take Maximum External Rotation (`mer_rel_frame` block in
`app.py`): restricted to non-null samples at frames `≤ br`, minimum value's
frame for a right-handed take, maximum value's frame for a left-handed one. -/
def mer_frame (hand : Hand) (br : ℤ) (c : Curve) : Option ℤ :=
  match validLe br c with
  | [] => none
  | p :: ps =>
      some (match hand with
            | Hand.R => (pyArgBest (fun v => -v) p ps).1
            | Hand.L => (pyArgBest id p ps).1)

/-- The sort key of `get_peak_glove_knee_pre_br`'s SQL query
(`ORDER BY ts.z_data DESC, ts.frame ASC`): `p` comes no later than `q` iff
`p` has a larger value, or an equal value and a no-larger frame. -/
abbrev pkhRel (p q : ℤ × ℚ) : Prop :=
  q.2 < p.2 ∨ (p.2 = q.2 ∧ p.1 ≤ q.1)

/-- Peak Knee Height (`get_peak_glove_knee_pre_br` in `app.py`): sort the
non-null knee vertical-position samples by (value descending, frame
ascending) and take the first whose frame is strictly before Ball Release;
`none` when BR is undefined for the take or no such row exists. -/
def get_peak_glove_knee_pre_br (br? : Option ℤ) (c : Curve) : Option ℤ :=
  match br? with
  | none => none
  | some br =>
      ((List.insertionSort pkhRel (validPairs c)).find?
        (fun p => decide (p.1 < br))).map Prod.fst

/-- Peak Ankle Proximal Velocity (`get_peak_ankle_prox_x_velocity` in
`app.py`): the SQL query returns the non-null samples ordered by
`ORDER BY ts.x_data DESC` — value descending with NO tiebreaker, so the
relative order of rows with equal values is unspecified — and the scan keeps
the first row per take.  We therefore model the function over an arbitrary
row list `rows` constrained by `PeakAnkleRows` below. -/
def get_peak_ankle_prox_x_velocity (rows : List (ℤ × ℚ)) : Option ℤ :=
  rows.head?.map Prod.fst

/-- `rows` is an admissible result of `get_peak_ankle_prox_x_velocity`'s SQL
query on the curve `c`: the non-null samples of `c`, in some order that is
sorted by value descending (ties ordered arbitrarily). -/
def PeakAnkleRows (rows : List (ℤ × ℚ)) (c : Curve) : Prop :=
  rows.Perm (validPairs c) ∧ rows.Pairwise (fun p q => q.2 ≤ p.2)

/-- Modelled from the spec's words for claim C6 (the refinement comparison):
"the first frame (in frame order) at which that axis attains its global
maximum".  With the samples in frame-ascending order this is the Python
first-argmax scan. -/
def claimed_peak_ankle_frame (c : Curve) : Option ℤ :=
  match validPairs c with
  | [] => none
  | p :: ps => some (pyArgBest id p ps).1

/-- The forward scan of `get_foot_plant_frame` (coarse Foot Plant): skip rows
outside the window `[knee, br]`; each in-window row with strictly negative
velocity overwrites the running result (`out[take_id] = int(frame)`), so the
last one wins. -/
def fp_scan (knee br : ℤ) : List (ℤ × ℚ) → Option ℤ → Option ℤ
  | [], out => out
  | (f, z) :: rest, out =>
      if f < knee ∨ br < f then fp_scan knee br rest out
      else if z < 0 then fp_scan knee br rest (some f)
      else fp_scan knee br rest out

/-- Coarse Foot Plant (`get_foot_plant_frame` in `app.py`): the last frame in
the inclusive window `[PKH, BR]` whose non-null ankle vertical velocity is
strictly negative; `none` when PKH or BR is undefined for the take or no such
frame exists. -/
def get_foot_plant_frame (knee? br? : Option ℤ) (c : Curve) : Option ℤ :=
  match knee?, br? with
  | some knee, some br => fp_scan knee br (validPairs c) none
  | _, _ => none

/-- The forward scan of `get_foot_plant_frame_zero_cross`: skip rows outside
the window `[px, er]`; at the first in-window row with value `≥ -0.05` record
that frame minus one (`out[take_id] = int(frame - 1)` guarded by
`take_id not in out`, so the first match wins). -/
def fp_zc_scan (px er : ℤ) : List (ℤ × ℚ) → Option ℤ
  | [] => none
  | (f, z) :: rest =>
      if f < px ∨ er < f then fp_zc_scan px er rest
      else if (-0.05 : ℚ) ≤ z then some (f - 1)
      else fp_zc_scan px er rest

/-- Refined zero-cross Foot Plant (`get_foot_plant_frame_zero_cross` in
`app.py`): within the inclusive window `[PeakAnkleVel, MER]`, the first frame
whose non-null ankle vertical velocity is `≥ -0.05`, minus one; `none` when
either bounding event is undefined for the take or no in-window row
qualifies. -/
def get_foot_plant_frame_zero_cross (px? er? : Option ℤ) (c : Curve) : Option ℤ :=
  match px?, er? with
  | some px, some er => fp_zc_scan px er (validPairs c)
  | _, _ => none

/-- `np.median`: sort the values; middle element for an odd count, mean of
the two middle elements for an even count. -/
def npMedian (l : List ℚ) : ℚ :=
  let s := List.insertionSort (· ≤ ·) l
  if l.length % 2 = 1 then s.getD (l.length / 2) 0
  else (s.getD (l.length / 2 - 1) 0 + s.getD (l.length / 2) 0) / 2

/-- Python's `int()` on a real number: truncation toward zero. -/
def pyInt (q : ℚ) : ℤ :=
  if 0 ≤ q then ⌊q⌋ else ⌈q⌉

/-- Cohort plotting-window start (`window_start` in `app.py`): from the
BR-relative refined Foot Plant offsets of the cohort,
`int(np.median(fp_event_frames)) - 50`, falling back to `-100` when no take
has the event. -/
def window_start (fp_event_frames : List ℤ) : ℤ :=
  if fp_event_frames = [] then -100
  else pyInt (npMedian (fp_event_frames.map (Int.cast : ℤ → ℚ))) - 50

/-- Cohort plotting-window end (`window_end` in `app.py`): fixed `+50`. -/
def window_end : ℤ := 50

/-- `np.mean`: arithmetic mean. -/
def npMean (l : List ℚ) : ℚ :=
  l.sum / l.length

/-- `np.percentile` with the default linear-interpolation convention: with
the values sorted and `pos = (n-1)·p/100`, interpolate linearly between the
values at positions `⌊pos⌋` and `⌈pos⌉`. -/
def npPercentile (p : ℚ) (l : List ℚ) : ℚ :=
  let s := List.insertionSort (· ≤ ·) l
  let pos : ℚ := ((l.length : ℚ) - 1) * p / 100
  let lo := ⌊pos⌋
  let hi := ⌈pos⌉
  s.getD lo.toNat 0 + (s.getD hi.toNat 0 - s.getD lo.toNat 0) * (pos - lo)

/-- The caller-selected central statistic of `aggregate_curves`. -/
inductive AggStat
  | mean
  | median
deriving DecidableEq

/-- Dispatch of `aggregate_curves`'s `if stat == "Mean" ... else np.median`. -/
def statFn : AggStat → List ℚ → ℚ
  | AggStat.mean => npMean
  | AggStat.median => npMedian

/-- `sorted(set(f for d in curves_dict.values() for f in d["frame"]))`: the
distinct relative-time values appearing in any member curve, ascending. -/
def allFrames (curves : List (List (ℤ × ℚ))) : List ℤ :=
  (List.insertionSort (· ≤ ·) (curves.flatMap (fun d => d.map Prod.fst))).dedup

/-- `[d["value"][i] for d in curves_dict.values() for i, fr in
enumerate(d["frame"]) if fr == f]`: the values sampled at exactly time `f`,
member curves in order. -/
def valsAt (curves : List (List (ℤ × ℚ))) (f : ℤ) : List ℚ :=
  curves.flatMap (fun d => (d.filter (fun p => decide (p.1 = f))).map Prod.snd)

/-- The per-time loop of `aggregate_curves`: for each time value, skip it when
no curve contributes a value (`if not vals: continue`), else append the
central statistic and the 25th/75th percentiles. -/
def aggLoop (curves : List (List (ℤ × ℚ))) (stat : AggStat) :
    List ℤ → List ℚ × List ℚ × List ℚ
  | [] => ([], [], [])
  | f :: fs =>
      let vals := valsAt curves f
      let rest := aggLoop curves stat fs
      if vals = [] then rest
      else (statFn stat vals :: rest.1,
            npPercentile 25 vals :: rest.2.1,
            npPercentile 75 vals :: rest.2.2)

/-- Curve Aggregator (`aggregate_curves` in `app.py`): returns
`(all_frames, agg_y, iqr_low, iqr_high)`. -/
def aggregate_curves (curves : List (List (ℤ × ℚ))) (stat : AggStat) :
    List ℤ × List ℚ × List ℚ × List ℚ :=
  (allFrames curves, aggLoop curves stat (allFrames curves))

/-- Python's `max(vals, key=abs)` over a plain value list: first element of
maximal absolute value wins. -/
def pyMaxBy (k : ℚ → ℚ) (a : ℚ) (l : List ℚ) : ℚ :=
  l.foldl (fun acc v => if k acc < k v then v else acc) a

/-- The non-null values of a curve, in fetch order
(`[v for v in values if v is not None]`). -/
def validVals (c : Curve) : List ℚ :=
  c.filterMap Prod.snd

/-- The dominant-peak sign factor of the Joint Angles section
(`peak_positive_kinematics` block in `app.py`): over the take's FULL value
list, `dominant_peak = max(valid_vals, key=abs)`; the factor is `-1` when it
is negative, `1` otherwise (also `1` when no valid value exists). -/
def dominant_sign_flip (c : Curve) : ℚ :=
  match validVals c with
  | [] => 1
  | v :: vs => if pyMaxBy (fun x => |x|) v vs < 0 then -1 else 1

/-- The BR-relative values of a curve restricted to the inclusive window
`[ws, we]`, nulls dropped, with no sign rule applied. -/
def windowed_vals (br ws we : ℤ) (c : Curve) : List ℚ :=
  c.filterMap (fun p => p.2.bind (fun v =>
    if ws ≤ p.1 - br ∧ p.1 - br ≤ we then some v else none))

/-- Joint Angles normalization of a rotational-velocity signal in the
`peak_positive_kinematics` family: the kinematic's name contains
"Velocity", so the handedness branch of the loop never fires and every kept
value is `sign_flip * v` with the dominant-peak sign factor. -/
def joint_norm_values (br ws we : ℤ) (c : Curve) : List ℚ :=
  c.filterMap (fun p => p.2.bind (fun v =>
    if ws ≤ p.1 - br ∧ p.1 - br ≤ we then some (dominant_sign_flip c * v) else none))

/-- Kinematic Sequence normalization of the pelvis angular-velocity curve
(`grouped_pelvis` block in `app.py`): in-window non-null values, negated for
a left-handed take (`if take_hand == "L": norm_values.append(-v)`); the torso
and shoulder-IR angular-velocity blocks apply the same fixed flip. -/
def grouped_pelvis_values (hand : Hand) (br ws we : ℤ) (c : Curve) : List ℚ :=
  c.filterMap (fun p => p.2.bind (fun v =>
    if ws ≤ p.1 - br ∧ p.1 - br ≤ we then
      some (if hand = Hand.L then -v else v)
    else none))

/-- The first fetched non-null sample inside the inclusive window
`[px, er]`, if any (used to analyse `get_foot_plant_frame_zero_cross`). -/
def first_in_window (px er : ℤ) (c : Curve) : Option (ℤ × ℚ) :=
  ((validPairs c).filter (fun p => !decide (p.1 < px ∨ er < p.1))).head?

/-- `pkhRel` is total: any two rows are ordered by (value desc, frame asc). -/
instance : IsTotal (ℤ × ℚ) pkhRel := by
  constructor
  intro a b
  rcases lt_trichotomy a.2 b.2 with h | h | h
  · exact Or.inr (Or.inl h)
  · rcases le_total a.1 b.1 with h1 | h1
    · exact Or.inl (Or.inr ⟨h, h1⟩)
    · exact Or.inr (Or.inr ⟨h.symm, h1⟩)
  · exact Or.inl (Or.inl h)

/-- `pkhRel` is transitive. -/
instance : IsTrans (ℤ × ℚ) pkhRel := by
  constructor
  intro a b c hab hbc
  rcases hab with hab | ⟨hab, hab1⟩
  · rcases hbc with hbc | ⟨hbc, _⟩
    · exact Or.inl (lt_trans hbc hab)
    · exact Or.inl (hbc ▸ hab)
  · rcases hbc with hbc | ⟨hbc, hbc1⟩
    · exact Or.inl (hab ▸ hbc)
    · exact Or.inr ⟨hab.trans hbc, le_trans hab1 hbc1⟩

/-! ## Helper lemmas -/

theorem pyArgBest_mem_le (k : ℚ → ℚ) :
    ∀ (l : List (ℤ × ℚ)) (acc : ℤ × ℚ),
      pyArgBest k acc l ∈ acc :: l ∧
        ∀ q ∈ acc :: l, k q.2 ≤ k (pyArgBest k acc l).2 := by
  intro l
  induction l with
  | nil =>
      intro acc
      constructor
      · simp [pyArgBest]
      · intro q hq
        simp only [List.mem_singleton] at hq
        simp [pyArgBest, hq]
  | cons q l' ih =>
      intro acc
      have hstep : pyArgBest k acc (q :: l') =
          pyArgBest k (if k acc.2 < k q.2 then q else acc) l' := by
        simp [pyArgBest]
      by_cases h : k acc.2 < k q.2
      · rw [hstep, if_pos h]
        obtain ⟨hmem, hle⟩ := ih q
        constructor
        · rcases List.mem_cons.mp hmem with h1 | h1
          · exact List.mem_cons.mpr (Or.inr (List.mem_cons.mpr (Or.inl h1)))
          · exact List.mem_cons.mpr (Or.inr (List.mem_cons.mpr (Or.inr h1)))
        · intro x hx
          rcases List.mem_cons.mp hx with rfl | hx'
          · exact le_of_lt (lt_of_lt_of_le h (hle q (List.mem_cons_self q l')))
          · exact hle x hx'
      · rw [hstep, if_neg h]
        obtain ⟨hmem, hle⟩ := ih acc
        constructor
        · rcases List.mem_cons.mp hmem with h1 | h1
          · exact List.mem_cons.mpr (Or.inl h1)
          · exact List.mem_cons.mpr (Or.inr (List.mem_cons.mpr (Or.inr h1)))
        · intro x hx
          rcases List.mem_cons.mp hx with rfl | hx'
          · exact hle x (List.mem_cons_self x l')
          · rcases List.mem_cons.mp hx' with rfl | hx''
            · exact le_trans (le_of_not_lt h) (hle _ (List.mem_cons_self _ l'))
            · exact hle x (List.mem_cons.mpr (Or.inr hx''))

theorem pyArgBest_first (k : ℚ → ℚ) :
    ∀ (l : List (ℤ × ℚ)) (acc : ℤ × ℚ),
      (acc :: l).Pairwise (fun p q => p.1 < q.1) →
      ∀ q ∈ acc :: l, k q.2 = k (pyArgBest k acc l).2 →
        (pyArgBest k acc l).1 ≤ q.1 := by
  intro l
  induction l with
  | nil =>
      intro acc _ q hq _
      simp only [List.mem_singleton] at hq
      simp [pyArgBest, hq]
  | cons q l' ih =>
      intro acc hp x hx hkx
      have hstep : pyArgBest k acc (q :: l') =
          pyArgBest k (if k acc.2 < k q.2 then q else acc) l' := by
        simp [pyArgBest]
      have hpq : (q :: l').Pairwise (fun p q => p.1 < q.1) := hp.of_cons
      have hpacc : (acc :: l').Pairwise (fun p q => p.1 < q.1) :=
        hp.sublist ((List.sublist_cons_self q l').cons₂ acc)
      have haccq : acc.1 < q.1 := List.rel_of_pairwise_cons hp (List.mem_cons_self q l')
      by_cases h : k acc.2 < k q.2
      · rw [hstep, if_pos h] at hkx ⊢
        rcases List.mem_cons.mp hx with rfl | hx'
        · -- x = acc : impossible, its key is strictly below the result's key
          exfalso
          have hb := (pyArgBest_mem_le k l' q).2 q (List.mem_cons_self q l')
          exact absurd hkx (ne_of_lt (lt_of_lt_of_le h hb))
        · exact ih q hpq x hx' hkx
      · rw [hstep, if_neg h] at hkx ⊢
        rcases List.mem_cons.mp hx with rfl | hx'
        · exact ih x hpacc x (List.mem_cons_self x l') hkx
        · rcases List.mem_cons.mp hx' with rfl | hx''
          · -- x = q : its key equals the result's, so acc's key does too
            have hb := (pyArgBest_mem_le k l' acc).2 acc (List.mem_cons_self acc l')
            have hq2 : k x.2 ≤ k acc.2 := le_of_not_lt h
            have : k acc.2 = k (pyArgBest k acc l').2 :=
              le_antisymm hb (hkx ▸ hq2)
            exact le_trans (ih acc hpacc acc (List.mem_cons_self acc l') this)
              (le_of_lt haccq)
          · exact ih acc hpacc x (List.mem_cons.mpr (Or.inr hx'')) hkx

theorem validPairs_pairwise {c : Curve} (h : FramesSorted c) :
    (validPairs c).Pairwise (fun p q => p.1 < q.1) := by
  rw [validPairs, List.pairwise_filterMap]
  refine h.imp ?_
  intro a b hab x hx y hy
  cases ha : a.2 with
  | none => simp [ha] at hx
  | some v =>
      cases hb : b.2 with
      | none => simp [hb] at hy
      | some w =>
          simp only [ha, hb, Option.map_some', Option.mem_def, Option.some.injEq] at hx hy
          rw [← hx, ← hy]
          exact hab

theorem validLe_pairwise {br : ℤ} {c : Curve} (h : FramesSorted c) :
    (validLe br c).Pairwise (fun p q => p.1 < q.1) := by
  rw [validLe, List.pairwise_filterMap]
  refine h.imp ?_
  intro a b hab x hx y hy
  cases ha : a.2 with
  | none => simp [ha] at hx
  | some v =>
      cases hb : b.2 with
      | none => simp [hb] at hy
      | some w =>
          simp only [ha, hb, Option.some_bind, Option.mem_def,
            Option.ite_none_right_eq_some, Option.some.injEq] at hx hy
          rw [← hx.2, ← hy.2]
          exact hab

theorem validLe_frame_le {br : ℤ} {c : Curve} {p : ℤ × ℚ} (h : p ∈ validLe br c) :
    p.1 ≤ br := by
  rw [validLe, List.mem_filterMap] at h
  obtain ⟨a, _, ha⟩ := h
  cases h2 : a.2 with
  | none => simp [h2] at ha
  | some v =>
      simp only [h2, Option.some_bind] at ha
      split at ha
      · cases ha; simpa using by assumption
      · cases ha

theorem find?_pairwise {α : Type} {R : α → α → Prop} {P : α → Bool} :
    ∀ {l : List α} {p : α}, l.Pairwise R → l.find? P = some p →
      p ∈ l ∧ P p = true ∧ ∀ q ∈ l, P q = true → q = p ∨ R p q := by
  intro l
  induction l with
  | nil => intro p _ hf; simp [List.find?] at hf
  | cons a t ih =>
      intro p hp hf
      by_cases ha : P a
      · rw [List.find?_cons_of_pos _ ha] at hf
        cases hf
        refine ⟨List.mem_cons_self a t, ha, ?_⟩
        intro q hq _
        rcases List.mem_cons.mp hq with rfl | hq'
        · exact Or.inl rfl
        · exact Or.inr (List.rel_of_pairwise_cons hp hq')
      · rw [List.find?_cons_of_neg _ (by simpa using ha)] at hf
        obtain ⟨hmem, hPp, hall⟩ := ih hp.of_cons hf
        refine ⟨List.mem_cons.mpr (Or.inr hmem), hPp, ?_⟩
        intro q hq hPq
        rcases List.mem_cons.mp hq with rfl | hq'
        · exact absurd hPq (by simpa using ha)
        · exact hall q hq' hPq

/-! ## C1: Ball Release -/

/-- C1: for every take whose hand-center-of-gravity-velocity curve has at
least one non-null sample, the Ball Release detector resolves to a frame
carrying the maximum value of that axis, and when several frames tie for the
maximum it picks the first such frame in ascending frame order. -/
theorem br_frame_first_global_max (c : Curve) (hs : FramesSorted c)
    (hne : validPairs c ≠ []) :
    ∃ f v, br_frame c = some f ∧ (f, v) ∈ validPairs c ∧
      (∀ q ∈ validPairs c, q.2 ≤ v) ∧
      (∀ q ∈ validPairs c, q.2 = v → f ≤ q.1) := by
  obtain ⟨p, ps, hl⟩ := List.exists_cons_of_ne_nil hne
  have hpw : (validPairs c).Pairwise (fun p q => p.1 < q.1) :=
    validPairs_pairwise hs
  rw [hl] at hpw
  obtain ⟨hmem, hle⟩ := pyArgBest_mem_le id ps p
  have hfirst := pyArgBest_first id ps p hpw
  refine ⟨(pyArgBest id p ps).1, (pyArgBest id p ps).2, ?_, ?_, ?_, ?_⟩
  · simp [br_frame, hl]
  · rw [hl]; simpa using hmem
  · intro q hq; rw [hl] at hq; exact hle q hq
  · intro q hq hv; rw [hl] at hq; exact hfirst q hq hv

/-- Witness for C1 at a synthetic tie: values 3, 7, 7 at frames 1, 2, 4 plus
a null sample; the detector must pick the earliest tied frame. -/
theorem br_frame_first_global_max_witness :
    ∃ f v,
      br_frame [((1 : ℤ), some (3 : ℚ)), (2, some 7), (4, some 7), (5, none)] =
        some f ∧
      (f, v) ∈ validPairs [((1 : ℤ), some (3 : ℚ)), (2, some 7), (4, some 7), (5, none)] ∧
      (∀ q ∈ validPairs [((1 : ℤ), some (3 : ℚ)), (2, some 7), (4, some 7), (5, none)],
        q.2 ≤ v) ∧
      (∀ q ∈ validPairs [((1 : ℤ), some (3 : ℚ)), (2, some 7), (4, some 7), (5, none)],
        q.2 = v → f ≤ q.1) :=
  br_frame_first_global_max _ (by decide) (by decide)

/-! ## C2: Maximum External Rotation -/

/-- Counterexample to C2 as stated: with Ball Release at frame 5 and a
shoulder-rotation curve whose only non-null sample sits at frame 10 > 5, the
claim demands MER to be undefined, but the cached detector
(`shoulder_er_max_frames` in `app.py`) searches the full curve with no
frame ≤ BR bound and resolves MER to frame 10. -/
theorem shoulder_er_max_ignores_br_counterexample :
    br_frame [((5 : ℤ), some (9 : ℚ))] = some 5 ∧
    (∀ q ∈ validPairs [((10 : ℤ), some (-3 : ℚ))], ¬ q.1 ≤ 5) ∧
    shoulder_er_max_frame Hand.R [((10 : ℤ), some (-3 : ℚ))] = some 10 ∧
    shoulder_er_max_frame Hand.R [((10 : ℤ), some (-3 : ℚ))] ≠ none := by
  refine ⟨by decide, by decide, by decide, by decide⟩

/-- C2 (amended): the inline per-take MER computation (`mer_rel_frame` block)
searches only frames ≤ BR — it is undefined iff no non-null sample exists at
a frame ≤ BR, and otherwise resolves, for a right-handed take, to a frame of
minimum value among valid frames ≤ BR and, for a left-handed take, to a frame
of maximum value among them; the cached `shoulder_er_max_frames` map applies
the same min/max rule but over the take's FULL curve, with no BR bound. -/
theorem mer_frame_le_br_spec (br : ℤ) (c : Curve) :
    (∀ h : Hand, mer_frame h br c = none ↔ validLe br c = []) ∧
    (∀ p ∈ validLe br c, p.1 ≤ br) ∧
    (∀ f, mer_frame Hand.R br c = some f →
       ∃ v, (f, v) ∈ validLe br c ∧ ∀ q ∈ validLe br c, v ≤ q.2) ∧
    (∀ f, mer_frame Hand.L br c = some f →
       ∃ v, (f, v) ∈ validLe br c ∧ ∀ q ∈ validLe br c, q.2 ≤ v) ∧
    (∀ f, shoulder_er_max_frame Hand.R c = some f →
       ∃ v, (f, v) ∈ validPairs c ∧ ∀ q ∈ validPairs c, v ≤ q.2) ∧
    (∀ f, shoulder_er_max_frame Hand.L c = some f →
       ∃ v, (f, v) ∈ validPairs c ∧ ∀ q ∈ validPairs c, q.2 ≤ v) := by
  refine ⟨?_, fun p hp => validLe_frame_le hp, ?_, ?_, ?_, ?_⟩
  · intro h
    cases hl : validLe br c with
    | nil => cases h <;> simp [mer_frame, hl]
    | cons p ps => cases h <;> simp [mer_frame, hl]
  · intro f hf
    cases hl : validLe br c with
    | nil => simp [mer_frame, hl] at hf
    | cons p ps =>
        simp only [mer_frame, hl, Option.some.injEq] at hf
        obtain ⟨hmem, hle⟩ := pyArgBest_mem_le (fun v => -v) ps p
        refine ⟨(pyArgBest (fun v => -v) p ps).2, ?_, ?_⟩
        · rw [← hf]; simpa using hmem
        · intro q hq
          simpa using hle q hq
  · intro f hf
    cases hl : validLe br c with
    | nil => simp [mer_frame, hl] at hf
    | cons p ps =>
        simp only [mer_frame, hl, Option.some.injEq] at hf
        obtain ⟨hmem, hle⟩ := pyArgBest_mem_le id ps p
        refine ⟨(pyArgBest id p ps).2, ?_, ?_⟩
        · rw [← hf]; simpa using hmem
        · intro q hq
          simpa using hle q hq
  · intro f hf
    cases hl : validPairs c with
    | nil => simp [shoulder_er_max_frame, hl] at hf
    | cons p ps =>
        simp only [shoulder_er_max_frame, hl, Option.some.injEq] at hf
        obtain ⟨hmem, hle⟩ := pyArgBest_mem_le (fun v => -v) ps p
        refine ⟨(pyArgBest (fun v => -v) p ps).2, ?_, ?_⟩
        · rw [← hf]; simpa using hmem
        · intro q hq
          simpa using hle q hq
  · intro f hf
    cases hl : validPairs c with
    | nil => simp [shoulder_er_max_frame, hl] at hf
    | cons p ps =>
        simp only [shoulder_er_max_frame, hl, Option.some.injEq] at hf
        obtain ⟨hmem, hle⟩ := pyArgBest_mem_le id ps p
        refine ⟨(pyArgBest id p ps).2, ?_, ?_⟩
        · rw [← hf]; simpa using hmem
        · intro q hq
          simpa using hle q hq

/-- Witness for C2's amended statement: BR = 5 and a shoulder curve with
samples 2, −1, −9 at frames 1, 3, 7; the bounded right-handed MER is frame 3
(minimum among frames ≤ 5) while the cached unbounded detector picks
frame 7. -/
theorem mer_frame_le_br_spec_witness :
    (∃ v, ((3 : ℤ), v) ∈
        validLe 5 [((1 : ℤ), some (2 : ℚ)), (3, some (-1)), (7, some (-9))] ∧
      ∀ q ∈ validLe 5 [((1 : ℤ), some (2 : ℚ)), (3, some (-1)), (7, some (-9))],
        v ≤ q.2) ∧
    (∃ v, ((7 : ℤ), v) ∈
        validPairs [((1 : ℤ), some (2 : ℚ)), (3, some (-1)), (7, some (-9))] ∧
      ∀ q ∈ validPairs [((1 : ℤ), some (2 : ℚ)), (3, some (-1)), (7, some (-9))],
        v ≤ q.2) :=
  ⟨(mer_frame_le_br_spec 5 _).2.2.1 3 (by decide),
   (mer_frame_le_br_spec 5 _).2.2.2.2.1 7 (by decide)⟩

/-! ## C3: Peak Knee Height -/

/-- Counterexample to C3 as stated: with BR = 5 and knee samples 50 at
frame 2 and 100 at frame 10, the global position peak (value 100) occurs at
frame 10, at/after BR, so the claim expects PKH undefined for the take — but
the detector falls back to the best-valued pre-BR candidate and returns
frame 2. -/
theorem pkh_peak_after_br_counterexample :
    ((10 : ℤ), (100 : ℚ)) ∈ validPairs [((2 : ℤ), some (50 : ℚ)), (10, some 100)] ∧
    (∀ q ∈ validPairs [((2 : ℤ), some (50 : ℚ)), (10, some 100)], q.2 ≤ 100) ∧
    ¬ ((10 : ℤ) < 5) ∧
    get_peak_glove_knee_pre_br (some 5) [((2 : ℤ), some (50 : ℚ)), (10, some 100)] =
      some 2 :=
  ⟨by decide, by decide, by decide, by decide⟩

/-- C3 (amended): whenever PKH is defined it lies strictly before BR; the
detector sorts the non-null candidates by (value descending, frame ascending)
and takes the first whose frame < BR, so the result beats every other pre-BR
candidate in that order; PKH is undefined iff NO non-null sample lies
strictly before BR (in particular, a global peak at/after BR does not make
PKH undefined while an inferior pre-BR candidate exists), and it is undefined
when BR is undefined. -/
theorem pkh_pre_br_spec (br : ℤ) (c : Curve) :
    (∀ f, get_peak_glove_knee_pre_br (some br) c = some f →
       f < br ∧ ∃ v, (f, v) ∈ validPairs c ∧
         ∀ q ∈ validPairs c, q.1 < br → q.2 < v ∨ (q.2 = v ∧ f ≤ q.1)) ∧
    (get_peak_glove_knee_pre_br (some br) c = none ↔
       ∀ q ∈ validPairs c, ¬ q.1 < br) ∧
    get_peak_glove_knee_pre_br none c = none := by
  have hsorted : (List.insertionSort pkhRel (validPairs c)).Pairwise pkhRel :=
    List.sorted_insertionSort pkhRel (validPairs c)
  have hperm : (List.insertionSort pkhRel (validPairs c)).Perm (validPairs c) :=
    List.perm_insertionSort pkhRel (validPairs c)
  refine ⟨?_, ?_, rfl⟩
  · intro f hf
    simp only [get_peak_glove_knee_pre_br, Option.map_eq_some'] at hf
    obtain ⟨p, hfind, hp1⟩ := hf
    obtain ⟨hmem, hP, hall⟩ := find?_pairwise hsorted hfind
    have hfb : f < br := by rw [← hp1]; exact of_decide_eq_true hP
    refine ⟨hfb, p.2, ?_, ?_⟩
    · rw [← hp1]
      exact hperm.mem_iff.mp hmem
    · intro q hq hqb
      have hq' : q ∈ List.insertionSort pkhRel (validPairs c) :=
        hperm.mem_iff.mpr hq
      rcases hall q hq' (decide_eq_true hqb) with rfl | hrel
      · exact Or.inr ⟨rfl, hp1 ▸ le_refl q.1⟩
      · rcases hrel with h1 | ⟨h1, h2⟩
        · exact Or.inl h1
        · exact Or.inr ⟨h1.symm, hp1 ▸ h2⟩
  · simp only [get_peak_glove_knee_pre_br, Option.map_eq_none', List.find?_eq_none]
    constructor
    · intro h q hq hqb
      exact absurd (decide_eq_true hqb) (by simpa using h q (hperm.mem_iff.mpr hq))
    · intro h q hq
      simpa using h q (hperm.mem_iff.mp hq)

/-- Witness for C3's amended statement at the counterexample input: PKH
resolves to frame 2 < 5 = BR, the best pre-BR candidate. -/
theorem pkh_pre_br_spec_witness :
    (2 : ℤ) < 5 ∧ ∃ v,
      ((2 : ℤ), v) ∈ validPairs [((2 : ℤ), some (50 : ℚ)), (10, some 100)] ∧
      ∀ q ∈ validPairs [((2 : ℤ), some (50 : ℚ)), (10, some 100)],
        q.1 < 5 → q.2 < v ∨ (q.2 = v ∧ (2 : ℤ) ≤ q.1) :=
  (pkh_pre_br_spec 5 [((2 : ℤ), some (50 : ℚ)), (10, some 100)]).1 2 (by decide)

/-! ## C4, C5, C10: Foot Plant detectors -/

theorem fp_zc_scan_eq (px er : ℤ) :
    ∀ l : List (ℤ × ℚ), fp_zc_scan px er l =
      (l.find? (fun p => !decide (p.1 < px ∨ er < p.1) &&
        decide ((-0.05 : ℚ) ≤ p.2))).map (fun p => p.1 - 1) := by
  intro l
  induction l with
  | nil => rfl
  | cons p rest ih =>
      obtain ⟨f, z⟩ := p
      rw [List.find?_cons]
      by_cases h1 : f < px ∨ er < f
      · simpa [fp_zc_scan, h1] using ih
      · by_cases h2 : (-0.05 : ℚ) ≤ z
        · simp [fp_zc_scan, h1, h2]
        · simpa [fp_zc_scan, h1, h2] using ih

theorem fp_scan_eq (knee br : ℤ) :
    ∀ (l : List (ℤ × ℚ)) (out : Option ℤ), fp_scan knee br l out =
      (match l.reverse.find? (fun p => !decide (p.1 < knee ∨ br < p.1) &&
          decide (p.2 < 0)) with
       | some p => some p.1
       | none => out) := by
  intro l
  induction l with
  | nil => intro out; rfl
  | cons p rest ih =>
      intro out
      obtain ⟨f, z⟩ := p
      have hstep : fp_scan knee br ((f, z) :: rest) out =
          if f < knee ∨ br < f then fp_scan knee br rest out
          else if z < 0 then fp_scan knee br rest (some f)
          else fp_scan knee br rest out := rfl
      rw [hstep, List.reverse_cons, List.find?_append]
      cases hr : rest.reverse.find? (fun p => !decide (p.1 < knee ∨ br < p.1) &&
          decide (p.2 < 0)) with
      | some q => split_ifs with h1 h2 <;> rw [ih, hr] <;> rfl
      | none =>
          split_ifs with h1 h2
          · rw [ih, hr]
            rcases h1 with h1 | h1 <;> simp [List.find?_cons, Option.or, h1]
          · rw [ih, hr]
            obtain ⟨h1a, h1b⟩ := not_or.mp h1
            simp [List.find?_cons, Option.or, h1a, h1b, h2]
          · rw [ih, hr]
            obtain ⟨h1a, h1b⟩ := not_or.mp h1
            simp [List.find?_cons, Option.or, h1a, h1b, h2]

/-- C5: whenever PKH and BR are defined for the take, the coarse Foot Plant,
when itself defined, lies inside the inclusive window [PKH, BR] and is the
last frame in that window with strictly negative ankle vertical velocity;
it is undefined iff no in-window sample is negative, and undefined whenever
PKH or BR is undefined. -/
theorem fp_coarse_spec (knee br : ℤ) (c : Curve) (hs : FramesSorted c) :
    (∀ fp, get_foot_plant_frame (some knee) (some br) c = some fp →
       knee ≤ fp ∧ fp ≤ br ∧ ∃ v, (fp, v) ∈ validPairs c ∧ v < 0 ∧
         ∀ q ∈ validPairs c, knee ≤ q.1 → q.1 ≤ br → q.2 < 0 → q.1 ≤ fp) ∧
    (get_foot_plant_frame (some knee) (some br) c = none ↔
       ∀ q ∈ validPairs c, knee ≤ q.1 → q.1 ≤ br → ¬ q.2 < 0) ∧
    get_foot_plant_frame none (some br) c = none ∧
    get_foot_plant_frame (some knee) none c = none := by
  have hrw : get_foot_plant_frame (some knee) (some br) c =
      (match (validPairs c).reverse.find? (fun p => !decide (p.1 < knee ∨ br < p.1) &&
          decide (p.2 < 0)) with
       | some p => some p.1
       | none => none) := fp_scan_eq knee br (validPairs c) none
  have hrevpw : (validPairs c).reverse.Pairwise (fun a b => b.1 < a.1) :=
    List.pairwise_reverse.mpr (validPairs_pairwise hs)
  refine ⟨?_, ?_, rfl, rfl⟩
  · intro fp hfp
    rw [hrw] at hfp
    cases hfind : (validPairs c).reverse.find? (fun p => !decide (p.1 < knee ∨ br < p.1) &&
        decide (p.2 < 0)) with
    | none => rw [hfind] at hfp; cases hfp
    | some p =>
        rw [hfind] at hfp
        have hp1 : p.1 = fp := by simpa using hfp
        obtain ⟨hmem, hP, hall⟩ := find?_pairwise hrevpw hfind
        have hPp : ¬(p.1 < knee ∨ br < p.1) ∧ p.2 < 0 := by simpa using hP
        obtain ⟨hw, hneg⟩ := hPp
        obtain ⟨hw1, hw2⟩ := not_or.mp hw
        subst hp1
        refine ⟨le_of_not_lt hw1, le_of_not_lt hw2, p.2, ?_, hneg, ?_⟩
        · simpa using List.mem_reverse.mp hmem
        · intro q hq hq1 hq2 hq3
          have hq' : q ∈ (validPairs c).reverse := List.mem_reverse.mpr hq
          have hPq : (!decide (q.1 < knee ∨ br < q.1) && decide (q.2 < 0)) = true := by
            have hno : ¬(q.1 < knee ∨ br < q.1) := by omega
            simp [hno, hq3]
          rcases hall q hq' hPq with rfl | hlt
          · exact le_refl _
          · exact le_of_lt hlt
  · constructor
    · intro hnone q hq hq1 hq2 hq3
      rw [hrw] at hnone
      cases hfind : (validPairs c).reverse.find? (fun p => !decide (p.1 < knee ∨ br < p.1) &&
          decide (p.2 < 0)) with
      | some p => rw [hfind] at hnone; cases hnone
      | none =>
          apply List.find?_eq_none.mp hfind q (List.mem_reverse.mpr hq)
          have hno : ¬(q.1 < knee ∨ br < q.1) := by omega
          simp [hno, hq3]
    · intro hall'
      rw [hrw]
      cases hfind : (validPairs c).reverse.find? (fun p => !decide (p.1 < knee ∨ br < p.1) &&
          decide (p.2 < 0)) with
      | none => rfl
      | some p =>
          exfalso
          have hPp : ¬(p.1 < knee ∨ br < p.1) ∧ p.2 < 0 := by
            simpa using List.find?_some hfind
          have hmem := List.mem_reverse.mp (List.mem_of_find?_eq_some hfind)
          obtain ⟨hw, hneg⟩ := hPp
          obtain ⟨hw1, hw2⟩ := not_or.mp hw
          exact hall' p hmem (le_of_not_lt hw1) (le_of_not_lt hw2) hneg

/-- Witness for C5 at the spec's test data: negative velocity at frames 10
and 15 inside the window [8, 18]; the detector reports the later one, 15. -/
theorem fp_coarse_spec_witness :
    (8 : ℤ) ≤ 15 ∧ (15 : ℤ) ≤ 18 ∧ ∃ v,
      ((15 : ℤ), v) ∈
        validPairs [((10 : ℤ), some (-1 : ℚ)), (12, some 1), (15, some (-2)), (20, some 3)] ∧
      v < 0 ∧
      ∀ q ∈ validPairs [((10 : ℤ), some (-1 : ℚ)), (12, some 1), (15, some (-2)), (20, some 3)],
        8 ≤ q.1 → q.1 ≤ 18 → q.2 < 0 → q.1 ≤ 15 :=
  (fp_coarse_spec 8 18 [((10 : ℤ), some (-1 : ℚ)), (12, some 1), (15, some (-2)), (20, some 3)]
    (by decide)).1 15 (by decide)

/-- C4: whenever Peak-Ankle-Proximal-Velocity and MER are defined for the
take, the refined Foot Plant, when itself defined, equals `f - 1` for the
first frame `f` inside the inclusive window [PeakAnkleVel, MER] whose ankle
vertical velocity is `≥ -0.05` (every earlier in-window sample is below the
threshold, so a later qualifying frame can never overwrite it); it is
undefined iff no in-window sample qualifies, and undefined whenever either
bounding event is undefined. -/
theorem fp_zero_cross_spec (px er : ℤ) (c : Curve) (hs : FramesSorted c) :
    (∀ fp, get_foot_plant_frame_zero_cross (some px) (some er) c = some fp →
       ∃ f v, fp = f - 1 ∧ (f, v) ∈ validPairs c ∧ px ≤ f ∧ f ≤ er ∧
         (-0.05 : ℚ) ≤ v ∧
         ∀ q ∈ validPairs c, px ≤ q.1 → q.1 ≤ er → q.1 < f → q.2 < -0.05) ∧
    (get_foot_plant_frame_zero_cross (some px) (some er) c = none ↔
       ∀ q ∈ validPairs c, px ≤ q.1 → q.1 ≤ er → q.2 < -0.05) ∧
    get_foot_plant_frame_zero_cross none (some er) c = none ∧
    get_foot_plant_frame_zero_cross (some px) none c = none := by
  have hrw : get_foot_plant_frame_zero_cross (some px) (some er) c =
      ((validPairs c).find? (fun p => !decide (p.1 < px ∨ er < p.1) &&
        decide ((-0.05 : ℚ) ≤ p.2))).map (fun p => p.1 - 1) :=
    fp_zc_scan_eq px er (validPairs c)
  have hpw := validPairs_pairwise hs
  refine ⟨?_, ?_, rfl, rfl⟩
  · intro fp hfp
    rw [hrw, Option.map_eq_some'] at hfp
    obtain ⟨p, hfind, hp1⟩ := hfp
    obtain ⟨hmem, hP, hall⟩ := find?_pairwise hpw hfind
    have hPp : ¬(p.1 < px ∨ er < p.1) ∧ (-0.05 : ℚ) ≤ p.2 := by simpa using hP
    obtain ⟨hw, hth⟩ := hPp
    obtain ⟨hw1, hw2⟩ := not_or.mp hw
    refine ⟨p.1, p.2, hp1.symm, by simpa using hmem,
      le_of_not_lt hw1, le_of_not_lt hw2, hth, ?_⟩
    intro q hq hq1 hq2 hq3
    by_contra hcon
    push_neg at hcon
    have hPq : (!decide (q.1 < px ∨ er < q.1) && decide ((-0.05 : ℚ) ≤ q.2)) = true := by
      have hno : ¬(q.1 < px ∨ er < q.1) := by omega
      simp [hno, hcon]
    rcases hall q hq hPq with rfl | hlt
    · exact lt_irrefl _ hq3
    · exact absurd hq3 (not_lt.mpr (le_of_lt hlt))
  · constructor
    · intro hnone q hq hq1 hq2
      rw [hrw, Option.map_eq_none', List.find?_eq_none] at hnone
      by_contra hcon
      push_neg at hcon
      apply hnone q hq
      have hno : ¬(q.1 < px ∨ er < q.1) := by omega
      simp [hno, hcon]
    · intro hall'
      rw [hrw, Option.map_eq_none', List.find?_eq_none]
      intro q hq
      by_cases hwq : q.1 < px ∨ er < q.1
      · simp [hwq]
      · obtain ⟨hw1, hw2⟩ := not_or.mp hwq
        have := hall' q hq (le_of_not_lt hw1) (le_of_not_lt hw2)
        simp [hwq, not_le.mpr this]

/-- Witness for C4 at the spec's test data: the curve is below the threshold
at frames 18, 19, crosses at frame 20 (value 0), dips below again at 22 and
re-crosses at 25; the detector reports 20 − 1 = 19 and the later crossing
does not overwrite it. -/
theorem fp_zero_cross_spec_witness :
    ∃ f v, (19 : ℤ) = f - 1 ∧
      (f, v) ∈ validPairs
        [((18 : ℤ), some (-1 : ℚ)), (19, some (-1)), (20, some 0), (22, some (-1)), (25, some 1)] ∧
      (18 : ℤ) ≤ f ∧ f ≤ 30 ∧ (-0.05 : ℚ) ≤ v ∧
      ∀ q ∈ validPairs
        [((18 : ℤ), some (-1 : ℚ)), (19, some (-1)), (20, some 0), (22, some (-1)), (25, some 1)],
        18 ≤ q.1 → q.1 ≤ 30 → q.1 < f → q.2 < -0.05 :=
  (fp_zero_cross_spec 18 30
    [((18 : ℤ), some (-1 : ℚ)), (19, some (-1)), (20, some 0), (22, some (-1)), (25, some 1)]
    (by decide)).1 19
    (by norm_num [get_foot_plant_frame_zero_cross, fp_zc_scan, validPairs])

theorem find?_window_threshold (px er : ℤ) :
    ∀ {l : List (ℤ × ℚ)} {x : ℤ × ℚ},
      (l.filter (fun p => !decide (p.1 < px ∨ er < p.1))).head? = some x →
      (-0.05 : ℚ) ≤ x.2 →
      l.find? (fun p => !decide (p.1 < px ∨ er < p.1) &&
        decide ((-0.05 : ℚ) ≤ p.2)) = some x := by
  intro l
  induction l with
  | nil => intro x h _; simp at h
  | cons a t ih =>
      intro x h hT
      by_cases hQ : a.1 < px ∨ er < a.1
      · rw [List.filter_cons_of_neg (by simp [hQ])] at h
        have hPa : ¬(!decide (a.1 < px ∨ er < a.1) &&
            decide ((-0.05 : ℚ) ≤ a.2)) = true := by simp [hQ]
        rw [@List.find?_cons_of_neg (ℤ × ℚ)
          (fun p => !decide (p.1 < px ∨ er < p.1) && decide ((-0.05 : ℚ) ≤ p.2))
          a t hPa]
        exact ih h hT
      · rw [List.filter_cons_of_pos (by simp [hQ])] at h
        have hax : a = x := by simpa using h
        subst hax
        have hPa : (!decide (a.1 < px ∨ er < a.1) &&
            decide ((-0.05 : ℚ) ≤ a.2)) = true := by simp [hQ, hT]
        rw [@List.find?_cons_of_pos (ℤ × ℚ)
          (fun p => !decide (p.1 < px ∨ er < p.1) && decide ((-0.05 : ℚ) ≤ p.2))
          a t hPa]

/-- C10: when the first non-null sample inside the refined Foot Plant window
[PeakAnkleVel, MER] already has value ≥ −0.05, the event is reported as that
sample's frame minus one — a frame that can precede the window's start and
need not be a sampled frame of the curve at all. -/
theorem fp_zero_cross_first_qualifies (px er : ℤ) (c : Curve) (f : ℤ) (v : ℚ)
    (hfirst : first_in_window px er c = some (f, v)) (hv : (-0.05 : ℚ) ≤ v) :
    get_foot_plant_frame_zero_cross (some px) (some er) c = some (f - 1) := by
  have h := find?_window_threshold px er (l := validPairs c) (x := (f, v)) hfirst hv
  show fp_zc_scan px er (validPairs c) = some (f - 1)
  rw [fp_zc_scan_eq, h]
  rfl

/-- Witness for C10: the window starts at frame 20 and the curve's first
in-window sample (frame 20, value 0) already qualifies, so the reported
event frame is 19 — strictly before the window start and not a sampled
frame of the curve. -/
theorem fp_zero_cross_first_qualifies_witness :
    get_foot_plant_frame_zero_cross (some 20) (some 30)
      [((20 : ℤ), some (0 : ℚ)), (25, some 1)] = some 19 ∧
    (19 : ℤ) < 20 ∧
    (19 : ℤ) ∉ [((20 : ℤ), some (0 : ℚ)), (25, some 1)].map Prod.fst := by
  refine ⟨?_, by decide, by decide⟩
  have h := fp_zero_cross_first_qualifies 20 30
    [((20 : ℤ), some (0 : ℚ)), (25, some 1)] 20 0 (by decide) (by norm_num)
  simpa using h

/-! ## C6: Peak Ankle Proximal Velocity -/

/-- Counterexample to C6 as stated: the curve has samples of equal value 1 at
frames 3 and 5; the row order [(5,1), (3,1)] is an admissible result of the
query's `ORDER BY x_data DESC` (which has no frame tiebreaker), and on it the
detector returns frame 5, not the earliest-occurring maximum frame 3 that the
claim requires. -/
theorem peak_ankle_tie_counterexample :
    PeakAnkleRows [((5 : ℤ), (1 : ℚ)), (3, 1)] [((3 : ℤ), some (1 : ℚ)), (5, some 1)] ∧
    get_peak_ankle_prox_x_velocity [((5 : ℤ), (1 : ℚ)), (3, 1)] = some 5 ∧
    claimed_peak_ankle_frame [((3 : ℤ), some (1 : ℚ)), (5, some 1)] = some 3 ∧
    (5 : ℤ) ≠ 3 :=
  ⟨⟨by decide, by decide⟩, by decide, by decide, by decide⟩

/-- C6 (amended): for every admissible result order of the value-descending
query (which sorts with no frame tiebreaker), the detector resolves the event
to a frame at which the axis attains its global maximum over the take's full
curve; which of several tied maximal frames is returned depends on the
query's unspecified tie order, not on ascending frame order. -/
theorem peak_ankle_spec (rows : List (ℤ × ℚ)) (c : Curve)
    (h : PeakAnkleRows rows c) (hne : validPairs c ≠ []) :
    ∃ f v, get_peak_ankle_prox_x_velocity rows = some f ∧
      (f, v) ∈ validPairs c ∧ ∀ q ∈ validPairs c, q.2 ≤ v := by
  obtain ⟨hperm, hsorted⟩ := h
  have hrne : rows ≠ [] := by
    intro hr
    rw [hr] at hperm
    exact hne hperm.symm.eq_nil
  obtain ⟨p, t, hr⟩ := List.exists_cons_of_ne_nil hrne
  subst hr
  refine ⟨p.1, p.2, rfl, ?_, ?_⟩
  · simpa using hperm.mem_iff.mp (List.mem_cons_self p t)
  · intro q hq
    have hq' : q ∈ p :: t := hperm.mem_iff.mpr hq
    rcases List.mem_cons.mp hq' with rfl | hq''
    · exact le_refl _
    · exact List.rel_of_pairwise_cons hsorted hq''

/-- Witness for C6's amended statement: with values 2 at frame 5 and 1 at
frame 3, the sorted rows are [(5,2),(3,1)] and the detector returns frame 5,
the unique global maximum. -/
theorem peak_ankle_spec_witness :
    ∃ f v, get_peak_ankle_prox_x_velocity [((5 : ℤ), (2 : ℚ)), (3, 1)] = some f ∧
      (f, v) ∈ validPairs [((3 : ℤ), some (1 : ℚ)), (5, some 2)] ∧
      ∀ q ∈ validPairs [((3 : ℤ), some (1 : ℚ)), (5, some 2)], q.2 ≤ v :=
  peak_ankle_spec [((5 : ℤ), (2 : ℚ)), (3, 1)] [((3 : ℤ), some (1 : ℚ)), (5, some 2)]
    ⟨by decide, by decide⟩ (by decide)

/-! ## C7: cohort plotting window -/

/-- Counterexample to C7 as stated, at the claim's own worked example: for
offsets [−25, −22] the median is −23.5, so "median − 50" is −73.5, yet the
code truncates the median toward zero with `int(...)` before subtracting and
yields −73. -/
theorem window_start_median_counterexample :
    window_start [-25, -22] = -73 ∧
    npMedian (([-25, -22] : List ℤ).map (Int.cast : ℤ → ℚ)) - 50 = -147 / 2 ∧
    ((-73 : ℚ) ≠ -147 / 2) := by
  refine ⟨?_, ?_, by norm_num⟩
  · norm_num [window_start, npMedian, pyInt, List.insertionSort, List.orderedInsert,
      List.getD, Int.ceil_neg, List.cons_ne_nil]
  · norm_num [npMedian, List.insertionSort, List.orderedInsert, List.getD]

/-- C7 (amended): the shared window start is −100 when no take has a defined
refined Foot Plant; otherwise it is the cohort median of the FP-relative-BR
offsets — middle of the sorted offsets for an odd count, mean of the two
middle ones for an even count — truncated toward zero by Python's `int()`,
minus 50; the window end is always +50; on the worked example [−25, −22] the
start is −73. -/
theorem window_start_spec :
    window_start [] = -100 ∧
    window_end = 50 ∧
    (∀ (l : List ℤ) (s : List ℚ), l ≠ [] →
       s.Perm (l.map (Int.cast : ℤ → ℚ)) → s.Sorted (· ≤ ·) →
       window_start l =
         pyInt (if l.length % 2 = 1 then s.getD (l.length / 2) 0
                else (s.getD (l.length / 2 - 1) 0 + s.getD (l.length / 2) 0) / 2) - 50) ∧
    window_start [-25, -22] = -73 := by
  refine ⟨by norm_num [window_start], rfl, ?_, ?_⟩
  · intro l s hne hperm hsorted
    have hinssorted :
        (List.insertionSort (· ≤ ·) (l.map (Int.cast : ℤ → ℚ))).Sorted (· ≤ ·) :=
      List.sorted_insertionSort (· ≤ ·) (l.map (Int.cast : ℤ → ℚ))
    have hse : s = List.insertionSort (· ≤ ·) (l.map (Int.cast : ℤ → ℚ)) :=
      List.eq_of_perm_of_sorted
        (hperm.trans (List.perm_insertionSort (· ≤ ·) (l.map (Int.cast : ℤ → ℚ))).symm)
        hsorted hinssorted
    subst hse
    rw [window_start, if_neg hne]
    simp only [npMedian, List.length_map]
  · norm_num [window_start, npMedian, pyInt, List.insertionSort, List.orderedInsert,
      List.getD, Int.ceil_neg, List.cons_ne_nil]

/-- Witness for C7's amended statement at the worked example: the sorted
offsets are [−25, −22], the even-count median is their mean −23.5, and the
window start is its truncation −23, minus 50. -/
theorem window_start_spec_witness :
    window_start [-25, -22] =
      pyInt (if ([-25, -22] : List ℤ).length % 2 = 1 then
               [(-25 : ℚ), -22].getD (([-25, -22] : List ℤ).length / 2) 0
             else ([(-25 : ℚ), -22].getD (([-25, -22] : List ℤ).length / 2 - 1) 0 +
               [(-25 : ℚ), -22].getD (([-25, -22] : List ℤ).length / 2) 0) / 2) - 50 :=
  window_start_spec.2.2.1 [-25, -22] [(-25 : ℚ), -22] (by decide)
    (by norm_num) (by norm_num [List.sorted_cons])

/-! ## C8: Curve Aggregator -/

theorem valsAt_ne_nil_of_mem_allFrames (curves : List (List (ℤ × ℚ))) (f : ℤ)
    (hf : f ∈ allFrames curves) : valsAt curves f ≠ [] := by
  rw [allFrames, List.mem_dedup,
    (List.perm_insertionSort (· ≤ ·) (curves.flatMap (fun d => d.map Prod.fst))).mem_iff,
    List.mem_flatMap] at hf
  obtain ⟨d, hd, hfd⟩ := hf
  obtain ⟨p, hp, hp1⟩ := List.mem_map.mp hfd
  apply List.ne_nil_of_mem (a := p.2)
  rw [valsAt, List.mem_flatMap]
  exact ⟨d, hd, List.mem_map.mpr ⟨p, List.mem_filter.mpr ⟨hp, by simp [hp1]⟩, rfl⟩⟩

theorem aggLoop_eq (curves : List (List (ℤ × ℚ))) (stat : AggStat) :
    ∀ fs : List ℤ, (∀ f ∈ fs, valsAt curves f ≠ []) →
      aggLoop curves stat fs =
        (fs.map (fun f => statFn stat (valsAt curves f)),
         fs.map (fun f => npPercentile 25 (valsAt curves f)),
         fs.map (fun f => npPercentile 75 (valsAt curves f))) := by
  intro fs
  induction fs with
  | nil => intro _; rfl
  | cons f fs ih =>
      intro h
      have hne := h f (List.mem_cons_self f fs)
      rw [aggLoop, ih (fun g hg => h g (List.mem_cons.mpr (Or.inr hg)))]
      simp [hne]

/-- C8: for every set of member curves and caller-selected statistic, the
aggregator emits, for each relative-time value appearing in at least one
member curve, exactly the chosen central statistic (np.mean or np.median) of
the values sampled at exactly that time, with np.percentile-25/75 bands
under the linear-interpolation convention (no time value is ever skipped,
because each listed time has at least one contributing value); in particular
for values 10, 20, 30 at time 0 the mean is 20, the median is 20, and the
bands are 15 and 25. -/
theorem aggregate_curves_spec :
    (∀ (curves : List (List (ℤ × ℚ))) (stat : AggStat),
      aggregate_curves curves stat =
        (allFrames curves,
         (allFrames curves).map (fun f => statFn stat (valsAt curves f)),
         (allFrames curves).map (fun f => npPercentile 25 (valsAt curves f)),
         (allFrames curves).map (fun f => npPercentile 75 (valsAt curves f)))) ∧
    npMean [10, 20, 30] = 20 ∧
    npMedian [10, 20, 30] = 20 ∧
    npPercentile 25 [10, 20, 30] = 15 ∧
    npPercentile 75 [10, 20, 30] = 25 ∧
    aggregate_curves [[((0 : ℤ), (10 : ℚ))], [(0, 20)], [(0, 30)]] AggStat.mean =
      ([0], [20], [15], [25]) ∧
    aggregate_curves [[((0 : ℤ), (10 : ℚ))], [(0, 20)], [(0, 30)]] AggStat.median =
      ([0], [20], [15], [25]) := by
  have hp25 : npPercentile 25 [10, 20, 30] = 15 := by
    norm_num [npPercentile, List.insertionSort, List.orderedInsert, List.getD,
      show ⌈(1/2 : ℚ)⌉ = 1 by rw [Int.ceil_eq_iff]; norm_num]
  have hp75 : npPercentile 75 [10, 20, 30] = 25 := by
    norm_num [npPercentile, List.insertionSort, List.orderedInsert, List.getD,
      show ⌈(3/2 : ℚ)⌉ = 2 by rw [Int.ceil_eq_iff]; norm_num,
      show Int.toNat 2 = 2 from rfl]
  have hgeneral : ∀ (curves : List (List (ℤ × ℚ))) (stat : AggStat),
      aggregate_curves curves stat =
        (allFrames curves,
         (allFrames curves).map (fun f => statFn stat (valsAt curves f)),
         (allFrames curves).map (fun f => npPercentile 25 (valsAt curves f)),
         (allFrames curves).map (fun f => npPercentile 75 (valsAt curves f))) := by
    intro curves stat
    rw [aggregate_curves,
      aggLoop_eq curves stat (allFrames curves)
        (fun f hf => valsAt_ne_nil_of_mem_allFrames curves f hf)]
  have hframes : allFrames [[((0 : ℤ), (10 : ℚ))], [(0, 20)], [(0, 30)]] = [0] := by
    norm_num [allFrames, List.insertionSort, List.orderedInsert,
      List.dedup_cons_of_mem, List.dedup_cons_of_not_mem]
  have hvals : valsAt [[((0 : ℤ), (10 : ℚ))], [(0, 20)], [(0, 30)]] 0 = [10, 20, 30] := by
    norm_num [valsAt]
  refine ⟨hgeneral, by norm_num [npMean], ?_, hp25, hp75, ?_, ?_⟩
  · norm_num [npMedian, List.insertionSort, List.orderedInsert, List.getD]
  · rw [hgeneral, hframes]
    simp only [List.map_cons, List.map_nil, hvals]
    rw [show statFn AggStat.mean [10, 20, 30] = 20 by norm_num [statFn, npMean],
      hp25, hp75]
  · rw [hgeneral, hframes]
    simp only [List.map_cons, List.map_nil, hvals]
    rw [show statFn AggStat.median [10, 20, 30] = 20 by
        norm_num [statFn, npMedian, List.insertionSort, List.orderedInsert, List.getD],
      hp25, hp75]

/-! ## C9: sign rules for rotational-velocity signals -/

theorem pyMaxBy_mem_le (k : ℚ → ℚ) :
    ∀ (l : List ℚ) (a : ℚ),
      pyMaxBy k a l ∈ a :: l ∧ ∀ w ∈ a :: l, k w ≤ k (pyMaxBy k a l) := by
  intro l
  induction l with
  | nil =>
      intro a
      constructor
      · simp [pyMaxBy]
      · intro w hw
        simp only [List.mem_singleton] at hw
        simp [pyMaxBy, hw]
  | cons v l' ih =>
      intro a
      have hstep : pyMaxBy k a (v :: l') = pyMaxBy k (if k a < k v then v else a) l' := by
        simp [pyMaxBy]
      by_cases h : k a < k v
      · rw [hstep, if_pos h]
        obtain ⟨hmem, hle⟩ := ih v
        constructor
        · rcases List.mem_cons.mp hmem with h1 | h1
          · exact List.mem_cons.mpr (Or.inr (List.mem_cons.mpr (Or.inl h1)))
          · exact List.mem_cons.mpr (Or.inr (List.mem_cons.mpr (Or.inr h1)))
        · intro w hw
          rcases List.mem_cons.mp hw with rfl | hw'
          · exact le_of_lt (lt_of_lt_of_le h (hle v (List.mem_cons_self v l')))
          · exact hle w hw'
      · rw [hstep, if_neg h]
        obtain ⟨hmem, hle⟩ := ih a
        constructor
        · rcases List.mem_cons.mp hmem with h1 | h1
          · exact List.mem_cons.mpr (Or.inl h1)
          · exact List.mem_cons.mpr (Or.inr (List.mem_cons.mpr (Or.inr h1)))
        · intro w hw
          rcases List.mem_cons.mp hw with rfl | hw'
          · exact hle w (List.mem_cons_self w l')
          · rcases List.mem_cons.mp hw' with rfl | hw''
            · exact le_trans (le_of_not_lt h) (hle _ (List.mem_cons_self _ l'))
            · exact hle w (List.mem_cons.mpr (Or.inr hw''))

/-- Counterexample to C9 as stated: the pelvis angular-velocity curve
[(0, 5)] of a left-handed take has dominant peak 5 > 0, so the
dominant-peak-sign rule keeps the curve as is — which is what the Joint
Angles pipeline does — yet the Kinematic Sequence pipeline additionally
applies the fixed left-handedness flip to the very same signal and negates
it, so the two sign rules are not mutually exclusive for pelvis rotational
velocity. -/
theorem pelvis_double_sign_rule_counterexample :
    dominant_sign_flip [((0 : ℤ), some (5 : ℚ))] = 1 ∧
    joint_norm_values 0 (-10) 10 [((0 : ℤ), some (5 : ℚ))] = [5] ∧
    grouped_pelvis_values Hand.L 0 (-10) 10 [((0 : ℤ), some (5 : ℚ))] = [-5] ∧
    ([(-5 : ℚ)] ≠ [5]) := by
  have hd : dominant_sign_flip [((0 : ℤ), some (5 : ℚ))] = 1 := by
    norm_num [dominant_sign_flip, validVals, pyMaxBy, List.filterMap_cons]
  refine ⟨hd, ?_, ?_, by norm_num⟩
  · norm_num [joint_norm_values, hd, List.filterMap_cons]
  · norm_num [grouped_pelvis_values, List.filterMap_cons]

/-- C9 (amended): in the Joint Angles pipeline, each take's curve of a
`peak_positive_kinematics` signal is scaled by the dominant-peak sign factor,
which is −1 exactly when a sample of largest absolute magnitude in the take's
full curve (the first such under Python's `max(..., key=abs)`) is negative
and +1 otherwise, with no handedness flip there; but the Kinematic Sequence
pipeline separately applies a fixed left-handedness negation to the pelvis
(and torso and shoulder-IR) angular-velocity curves, so the two rules are not
mutually exclusive per signal — they govern the same signal at different call
sites. -/
theorem dominant_peak_sign_spec :
    (∀ (br ws we : ℤ) (c : Curve),
       joint_norm_values br ws we c =
         (windowed_vals br ws we c).map (fun v => dominant_sign_flip c * v)) ∧
    (∀ c : Curve, validVals c ≠ [] →
       ∃ d ∈ validVals c, (∀ w ∈ validVals c, |w| ≤ |d|) ∧
         (dominant_sign_flip c = -1 ↔ d < 0) ∧
         (dominant_sign_flip c = 1 ↔ ¬ d < 0)) ∧
    (∀ (br ws we : ℤ) (c : Curve),
       grouped_pelvis_values Hand.L br ws we c =
         (windowed_vals br ws we c).map (fun v => -v)) ∧
    (∀ (br ws we : ℤ) (c : Curve),
       grouped_pelvis_values Hand.R br ws we c = windowed_vals br ws we c) := by
  refine ⟨?_, ?_, ?_, ?_⟩
  · intro br ws we c
    rw [joint_norm_values, windowed_vals, List.map_filterMap]
    congr 1
    funext p
    cases hp : p.2 with
    | none => simp
    | some v =>
        simp only [Option.some_bind, Option.map]
        split_ifs <;> rfl
  · intro c hne
    obtain ⟨v, vs, hl⟩ := List.exists_cons_of_ne_nil hne
    obtain ⟨hmem, hle⟩ := pyMaxBy_mem_le (fun x => |x|) vs v
    refine ⟨pyMaxBy (fun x => |x|) v vs, by rw [hl]; exact hmem, ?_, ?_, ?_⟩
    · intro w hw
      rw [hl] at hw
      exact hle w hw
    · have hD : dominant_sign_flip c =
          if pyMaxBy (fun x => |x|) v vs < 0 then (-1 : ℚ) else 1 := by
        rw [dominant_sign_flip, hl]
      rw [hD]
      split_ifs with h
      · exact ⟨fun _ => h, fun _ => rfl⟩
      · constructor
        · intro h1; exact absurd h1 (by norm_num)
        · intro h1; exact absurd h1 h
    · have hD : dominant_sign_flip c =
          if pyMaxBy (fun x => |x|) v vs < 0 then (-1 : ℚ) else 1 := by
        rw [dominant_sign_flip, hl]
      rw [hD]
      split_ifs with h
      · constructor
        · intro h1; exact absurd h1 (by norm_num)
        · intro h1; exact absurd h h1
      · exact ⟨fun _ => h, fun _ => rfl⟩
  · intro br ws we c
    rw [grouped_pelvis_values, windowed_vals, List.map_filterMap]
    congr 1
    funext p
    cases hp : p.2 with
    | none => simp
    | some v =>
        simp only [Option.some_bind, Option.map]
        split_ifs <;> rfl
  · intro br ws we c
    rw [grouped_pelvis_values, windowed_vals]
    congr 1

/-- Witness for C9's amended statement on the curve [(0, −7), (1, 3)]: the
dominant peak is −7, so the Joint Angles rule negates the curve, while the
Kinematic Sequence rule negates it for a left-handed take regardless. -/
theorem dominant_peak_sign_spec_witness :
    (joint_norm_values 0 (-10) 10 [((0 : ℤ), some (-7 : ℚ)), (1, some 3)] =
      (windowed_vals 0 (-10) 10 [((0 : ℤ), some (-7 : ℚ)), (1, some 3)]).map
        (fun v => dominant_sign_flip [((0 : ℤ), some (-7 : ℚ)), (1, some 3)] * v)) ∧
    (∃ d ∈ validVals [((0 : ℤ), some (-7 : ℚ)), (1, some 3)],
       (∀ w ∈ validVals [((0 : ℤ), some (-7 : ℚ)), (1, some 3)], |w| ≤ |d|) ∧
       (dominant_sign_flip [((0 : ℤ), some (-7 : ℚ)), (1, some 3)] = -1 ↔ d < 0) ∧
       (dominant_sign_flip [((0 : ℤ), some (-7 : ℚ)), (1, some 3)] = 1 ↔ ¬ d < 0)) ∧
    (grouped_pelvis_values Hand.L 0 (-10) 10 [((0 : ℤ), some (-7 : ℚ)), (1, some 3)] =
      (windowed_vals 0 (-10) 10 [((0 : ℤ), some (-7 : ℚ)), (1, some 3)]).map
        (fun v => -v)) :=
  ⟨dominant_peak_sign_spec.1 0 (-10) 10 _,
   dominant_peak_sign_spec.2.1 _ (by decide),
   dominant_peak_sign_spec.2.2.1 0 (-10) 10 _⟩
